import Mathlib

/-!
Verification of the `NaiveBayes` classifier implemented in `src/naive_bayes.py`.

The Python class stores three fields (`class_priors`, `conditional_probabilities`,
`vocab_size`), all `None` until `fit` is called.  Dictionaries keyed by integer
class labels are modelled as insertion-ordered association lists
(`List (Label × _)`), which is faithful to CPython's insertion-ordered `dict`.
Exact rational arithmetic (`ℚ`) models the tensor arithmetic of the training
phase; the inference phase, which applies `log`, `exp` and `softmax`, is
modelled over `ℝ` with the stored rationals cast in.  Operations that can raise
a Python exception return `Except NBError _`.
-/

namespace NaiveBayesModel

/-- Class labels are Python integers (`int(label)` in the source). -/
abbrev Label := Int

/-- Association-list lookup by label: models `dict[key]` access and `key in dict`
membership tests (`isSome`).  Insertion order of entries is preserved elsewhere. -/
def alookup {α : Type} : List (Label × α) → Label → Option α
  | [], _ => none
  | (k, v) :: rest, c => if k = c then some v else alookup rest c

/-- One step of the counting loop in `estimate_class_priors`:
`if label in class_priors: class_priors[label] += 1 else: class_priors[label] = 1`.
A fresh label is appended at the end, matching `dict` insertion order. -/
def bump : List (Label × Nat) → Label → List (Label × Nat)
  | [], l => [(l, 1)]
  | (k, c) :: rest, l => if k = l then (k, c + 1) :: rest else (k, c) :: bump rest l

/-- The first loop of `estimate_class_priors`: a label-count dictionary built by
iterating over `labels` in order. -/
def countLabels (labels : List Label) : List (Label × Nat) :=
  labels.foldl bump []

/-- `NaiveBayes.estimate_class_priors`: count each label, then divide every count
by `len(labels)`.  The division loop only runs over the keys actually present. -/
def estimate_class_priors (labels : List Label) : List (Label × ℚ) :=
  (countLabels labels).map (fun p => (p.1, (p.2 : ℚ) / (labels.length : ℚ)))

/-- Errors a `NaiveBayes` method can raise: the two "model not trained" guards
(`ValueError` / `Exception` in the source, merged here), Python's
`ZeroDivisionError`, and `KeyError` from `dict` subscripting. -/
inductive NBError
  | notTrained
  | zeroDiv
  | keyError
deriving DecidableEq

/-- Evaluation of a Python `for` loop that builds a list and can raise: apply
`g` to each element in order, stopping at the first raised error. -/
def exceptMap {α β : Type} (g : α → Except NBError β) : List α → Except NBError (List β)
  | [] => Except.ok []
  | x :: xs =>
    match g x with
    | Except.error e => Except.error e
    | Except.ok y =>
        match exceptMap g xs with
        | Except.error e => Except.error e
        | Except.ok ys => Except.ok (y :: ys)

/-- `estimate_class_priors` with Python's division semantics made explicit: each
executed division `class_priors[key] / len(labels)` raises `ZeroDivisionError`
when `len(labels) = 0`.  No division is executed for keys that do not exist,
so an empty input reaches no division at all. -/
def estimate_class_priors_run (labels : List Label) : Except NBError (List (Label × ℚ)) :=
  exceptMap
    (fun p =>
      if labels.length = 0 then Except.error NBError.zeroDiv
      else Except.ok (p.1, (p.2 : ℚ) / (labels.length : ℚ)))
    (countLabels labels)

/-- The mutable state of a `NaiveBayes` instance: `class_priors`,
`conditional_probabilities` and `vocab_size`, each `None` until `fit` sets it. -/
structure NBState where
  class_priors : Option (List (Label × ℚ))
  conditional_probabilities : Option (List (Label × List ℚ))
  vocab_size : Option Nat
deriving DecidableEq

/-- The state created by `NaiveBayes.__init__`: all three fields `None`. -/
def initial : NBState := ⟨none, none, none⟩

/-- One step of the first loop of `estimate_conditional_probabilities`:
insert a value for a fresh label, or add it to the stored value. -/
def addSum : List (Label × ℚ) → Label → ℚ → List (Label × ℚ)
  | [], l, v => [(l, v)]
  | (k, c) :: rest, l, v => if k = l then (k, c + v) :: rest else (k, c) :: addSum rest l v

/-- The first loop of `estimate_conditional_probabilities`:
`total_words_for_class[label]` accumulates `features[indx].sum()` per class. -/
def total_words_for_class (features : List (List ℚ)) (labels : List Label) :
    List (Label × ℚ) :=
  (labels.zip features).foldl (fun m p => addSum m p.1 p.2.sum) []

/-- One step of the second loop of `estimate_conditional_probabilities`: store
`firstVal` for a fresh label, otherwise add `addVal` componentwise
(`+=` on tensors) to the stored vector. -/
def condStep (m : List (Label × List ℚ)) (l : Label) (firstVal addVal : List ℚ) :
    List (Label × List ℚ) :=
  match m with
  | [] => [(l, firstVal)]
  | (k, v) :: rest =>
      if k = l then (k, List.zipWith (· + ·) v addVal) :: rest
      else (k, v) :: condStep rest l firstVal addVal

/-- `NaiveBayes.estimate_conditional_probabilities`: for each training example in
order, the first example of its class contributes `(features[indx] + delta) / d`
and every later example of the same class contributes `features[indx] / d`,
where `d = vocab_size * delta + total_words_for_class[label]` and `vocab_size`
is the classifier field passed in by the caller. -/
def estimate_conditional_probabilities (features : List (List ℚ)) (labels : List Label)
    (delta : ℚ) (vocab : ℚ) : List (Label × List ℚ) :=
  let tw := total_words_for_class features labels
  (labels.zip features).foldl
    (fun m p =>
      let d := vocab * delta + (alookup tw p.1).getD 0
      condStep m p.1 (p.2.map (fun x => (x + delta) / d)) (p.2.map (fun x => x / d)))
    []

/-- `NaiveBayes.fit`: stores the priors, sets `vocab_size = labels.numel()`
(the NUMBER OF LABELS, not the feature width), then stores the conditional
probabilities computed with that vocabulary size. -/
def fit (features : List (List ℚ)) (labels : List Label) (delta : ℚ) : NBState :=
  let cp := estimate_class_priors labels
  let V := labels.length
  { class_priors := some cp
    conditional_probabilities :=
      some (estimate_conditional_probabilities features labels delta (V : ℚ))
    vocab_size := some V }

/-- Comparison used by `sorted(self.class_priors.items())`: Python sorts the
(label, value) tuples lexicographically, which orders by label whenever the
labels are distinct (dictionary keys always are). -/
def keyLE (a b : Label × ℚ) : Prop := a.1 ≤ b.1

instance : DecidableRel keyLE := fun a b => Int.decLe a.1 b.1

instance : IsTotal (Label × ℚ) keyLE := ⟨fun a b => le_total a.1 b.1⟩

instance : IsTrans (Label × ℚ) keyLE := ⟨fun _ _ _ h h' => le_trans h h'⟩

/-- `sorted(self.class_priors.items())`: the prior entries in ascending label
order (a stable sort; keys are distinct so only the label matters). -/
def sortPairs (m : List (Label × ℚ)) : List (Label × ℚ) :=
  List.insertionSort keyLE m

/-- `torch.sum(torch.log(conditional) * feature)`: the elementwise product of
`log` of the conditional vector with the feature vector, summed. -/
noncomputable def dotLogSum (cond feature : List ℚ) : ℝ :=
  ((cond.zip feature).map (fun p => Real.log (p.1 : ℝ) * (p.2 : ℝ))).sum

/-- `NaiveBayes.estimate_class_posteriors`: raises when either stored mapping is
still `None`; otherwise, for each prior entry in ascending label order, emits
`log(prior) + sum(log(conditional[label]) * feature)`.  Subscripting
`conditional_probabilities[label]` raises `KeyError` if the label is absent. -/
noncomputable def estimate_class_posteriors (s : NBState) (feature : List ℚ) :
    Except NBError (List ℝ) :=
  match s.class_priors, s.conditional_probabilities with
  | some cp, some co =>
      exceptMap
        (fun lp =>
          match alookup co lp.1 with
          | some cond => Except.ok (Real.log (lp.2 : ℝ) + dotLogSum cond feature)
          | none => Except.error NBError.keyError)
        (sortPairs cp)
  | _, _ => Except.error NBError.notTrained

/-- Maximum entry of a nonempty list (0 on the empty list, which no caller
reaches): used to state the first-maximum semantics of `torch.argmax`. -/
noncomputable def maxList : List ℝ → ℝ
  | [] => 0
  | [x] => x
  | x :: y :: ys => max x (maxList (y :: ys))

/-- `torch.argmax(...).item()`: the index of the FIRST maximal entry (PyTorch
documents that on ties the first maximal index is returned). -/
noncomputable def argmaxFirst : List ℝ → Nat
  | [] => 0
  | [_] => 0
  | x :: y :: ys => if maxList (y :: ys) ≤ x then 0 else argmaxFirst (y :: ys) + 1

/-- `NaiveBayes.predict`: the truthiness guard `not self.class_priors or not
self.conditional_probabilities` raises when either field is `None` OR an empty
dict; otherwise the arg-max index of the log-posterior vector is returned. -/
noncomputable def predict (s : NBState) (feature : List ℚ) : Except NBError Nat :=
  match s.class_priors, s.conditional_probabilities with
  | some (_ :: _), some (_ :: _) =>
      (estimate_class_posteriors s feature).map argmaxFirst
  | _, _ => Except.error NBError.notTrained

/-- `torch.softmax` along the only axis: `exp(x_i) / Σ_j exp(x_j)`.  (The
numerically-stable shifted form computed by PyTorch is equal to this over ℝ.) -/
noncomputable def softmax (l : List ℝ) : List ℝ :=
  l.map (fun x => Real.exp x / (l.map Real.exp).sum)

/-- `NaiveBayes.predict_proba`: same truthiness guard as `predict`, then the
softmax of the log-posterior vector. -/
noncomputable def predict_proba (s : NBState) (feature : List ℚ) :
    Except NBError (List ℝ) :=
  match s.class_priors, s.conditional_probabilities with
  | some (_ :: _), some (_ :: _) =>
      (estimate_class_posteriors s feature).map softmax
  | _, _ => Except.error NBError.notTrained

/-! ## Association-list and counting lemmas -/

theorem alookup_bump (m : List (Label × Nat)) (l x : Label) :
    alookup (bump m l) x =
      if x = l then some ((alookup m x).getD 0 + 1) else alookup m x := by
  induction m with
  | nil =>
      by_cases h : x = l <;> simp [bump, alookup, eq_comm, h]
  | cons p rest ih =>
      obtain ⟨k, c⟩ := p
      by_cases hkl : k = l <;> by_cases hkx : k = x <;>
        simp_all [bump, alookup, ih] <;> simp_all [eq_comm]

theorem alookup_foldl_bump_getD (L : List Label) (m : List (Label × Nat)) (x : Label) :
    (alookup (L.foldl bump m) x).getD 0 = (alookup m x).getD 0 + L.count x := by
  induction L generalizing m with
  | nil => simp
  | cons a L ih =>
      rw [List.foldl_cons, ih, alookup_bump]
      by_cases h : x = a <;> simp [List.count_cons, h] <;> omega

theorem alookup_foldl_bump_isSome (L : List Label) (m : List (Label × Nat)) (x : Label) :
    (alookup (L.foldl bump m) x).isSome ↔ x ∈ L ∨ (alookup m x).isSome := by
  induction L generalizing m with
  | nil => simp
  | cons a L ih =>
      rw [List.foldl_cons, ih, alookup_bump]
      by_cases h : x = a <;> simp [h]

theorem alookup_countLabels_of_mem {L : List Label} {x : Label} (h : x ∈ L) :
    alookup (countLabels L) x = some (L.count x) := by
  rw [countLabels]
  have hs : (alookup (L.foldl bump []) x).isSome := by
    rw [alookup_foldl_bump_isSome]; exact Or.inl h
  obtain ⟨v, hv⟩ := Option.isSome_iff_exists.mp hs
  have hg := alookup_foldl_bump_getD L [] x
  rw [hv] at hg ⊢
  simp [alookup] at hg
  simp [hg]

theorem alookup_countLabels_of_not_mem {L : List Label} {x : Label} (h : x ∉ L) :
    alookup (countLabels L) x = none := by
  have hs := alookup_foldl_bump_isSome L [] x
  rw [← countLabels] at hs
  simp [alookup, h] at hs
  exact Option.not_isSome_iff_eq_none.mp (by simp [hs])

theorem snd_sum_bump (m : List (Label × Nat)) (l : Label) :
    ((bump m l).map Prod.snd).sum = (m.map Prod.snd).sum + 1 := by
  induction m with
  | nil => simp [bump]
  | cons p rest ih =>
      obtain ⟨k, c⟩ := p
      by_cases h : k = l <;> simp [bump, h, ih] <;> omega

theorem snd_sum_foldl_bump (L : List Label) (m : List (Label × Nat)) :
    ((L.foldl bump m).map Prod.snd).sum = (m.map Prod.snd).sum + L.length := by
  induction L generalizing m with
  | nil => simp
  | cons a L ih =>
      rw [List.foldl_cons, ih, snd_sum_bump]
      simp [List.length_cons]
      omega

theorem alookup_map_values {α β : Type} (m : List (Label × α)) (g : Label → α → β) (x : Label) :
    alookup (m.map (fun p => (p.1, g p.1 p.2))) x = (alookup m x).map (g x) := by
  induction m with
  | nil => simp [alookup]
  | cons p rest ih =>
      obtain ⟨k, v⟩ := p
      by_cases h : k = x <;> simp [alookup, h, ih]

theorem sum_map_div {K : Type} [DivisionRing K] (l : List K) (c : K) :
    (l.map (fun x => x / c)).sum = l.sum / c := by
  induction l with
  | nil => simp
  | cons a l ih => simp [ih, add_div]


/-! ## Claims about the priors and the smoothing denominator (C1, C6, C7) -/

/-- C6: for every non-empty label vector, the priors mapping is defined exactly on
the observed labels, each mapped to count/total, and its values sum to 1. -/
theorem claim_C6_class_priors (L : List Label) (hL : L ≠ []) :
    (∀ x : Label, (alookup (estimate_class_priors L) x).isSome ↔ x ∈ L) ∧
    (∀ x ∈ L, alookup (estimate_class_priors L) x
        = some ((L.count x : ℚ) / (L.length : ℚ))) ∧
    ((estimate_class_priors L).map Prod.snd).sum = 1 := by
  have hmap : ∀ x : Label, alookup (estimate_class_priors L) x
      = (alookup (countLabels L) x).map (fun c : ℕ => (c : ℚ) / (L.length : ℚ)) := by
    intro x
    exact alookup_map_values (countLabels L) (fun _ c => (c : ℚ) / (L.length : ℚ)) x
  refine ⟨?_, ?_, ?_⟩
  · intro x
    rw [hmap]
    constructor
    · intro h
      by_contra hx
      rw [alookup_countLabels_of_not_mem hx] at h
      simp at h
    · intro h
      rw [alookup_countLabels_of_mem h]
      simp
  · intro x hx
    rw [hmap, alookup_countLabels_of_mem hx]
    rfl
  · have hlen : (L.length : ℚ) ≠ 0 :=
      Nat.cast_ne_zero.mpr (fun h => hL (List.length_eq_zero.mp h))
    have h3 : ((countLabels L).map Prod.snd).sum = L.length := by
      simpa [countLabels] using snd_sum_foldl_bump L []
    calc ((estimate_class_priors L).map Prod.snd).sum
        = ((((countLabels L).map Prod.snd).map (fun n : Nat => (n : ℚ))).map
            (fun x => x / (L.length : ℚ))).sum := by
          simp only [estimate_class_priors, List.map_map]
          rfl
      _ = ((((countLabels L).map Prod.snd).sum : ℕ) : ℚ) / (L.length : ℚ) := by
          rw [sum_map_div, Nat.cast_list_sum]
      _ = 1 := by rw [h3, div_self hlen]

/-- C6 witness: the concrete conclusion at labels `[0, 1, 1]`. -/
theorem claim_C6_class_priors_witness :
    (([0, 1, 1] : List Label) ≠ []) ∧
    ((∀ x : Label, (alookup (estimate_class_priors [0, 1, 1]) x).isSome ↔ x ∈ ([0, 1, 1] : List Label)) ∧
     (∀ x ∈ ([0, 1, 1] : List Label), alookup (estimate_class_priors [0, 1, 1]) x
        = some ((([0, 1, 1] : List Label).count x : ℚ) / (([0, 1, 1] : List Label).length : ℚ))) ∧
     ((estimate_class_priors [0, 1, 1]).map Prod.snd).sum = 1) :=
  ⟨by decide, claim_C6_class_priors [0, 1, 1] (by decide)⟩

/-- C7 counterexample: on an empty label vector `estimate_class_priors` does NOT
raise `ZeroDivisionError` — the division loop body is never reached. -/
theorem claim_C7_counterexample :
    estimate_class_priors_run [] ≠ Except.error NBError.zeroDiv := by
  simp [estimate_class_priors_run, countLabels, exceptMap]

/-- C7 amended: on an empty label vector `estimate_class_priors` performs no
division at all and returns the empty mapping (degenerate only in that it
contains no classes); no division by a zero count occurs. -/
theorem claim_C7_amended :
    estimate_class_priors_run [] = Except.ok [] ∧ estimate_class_priors [] = [] := by
  constructor <;>
    simp [estimate_class_priors_run, estimate_class_priors, countLabels, exceptMap]

/-- C1 counterexample: in the §8 scenario the stored conditional vector for class
0 is NOT `[0.4, 0.4, 0.2]`, because `fit` sets `vocab_size` to the number of
labels (4), so the smoothing denominator is `4·1 + 2 = 6`, not 5. -/
theorem claim_C1_counterexample :
    alookup ((fit [[1, 0, 0], [0, 1, 0], [0, 0, 1], [1, 1, 0]] [0, 0, 1, 1]
        1).conditional_probabilities.getD []) 0
      ≠ some [2/5, 2/5, 1/5] := by
  norm_num [fit, estimate_conditional_probabilities, total_words_for_class, List.foldl,
    addSum, condStep, alookup, estimate_class_priors, countLabels, bump]

/-- C1 amended: in the §8 scenario the priors are `{0: 1/2, 1: 1/2}` as claimed,
but `vocab_size` is 4 (the label count), the class-0 smoothing denominator is
`4·1 + 2 = 6`, and the stored class-0 conditional vector is `[1/3, 1/3, 1/6]`. -/
theorem claim_C1_amended :
    (fit [[1, 0, 0], [0, 1, 0], [0, 0, 1], [1, 1, 0]] [0, 0, 1, 1] 1).class_priors
        = some [(0, 1/2), (1, 1/2)] ∧
    (fit [[1, 0, 0], [0, 1, 0], [0, 0, 1], [1, 1, 0]] [0, 0, 1, 1] 1).vocab_size = some 4 ∧
    alookup ((fit [[1, 0, 0], [0, 1, 0], [0, 0, 1], [1, 1, 0]] [0, 0, 1, 1]
        1).conditional_probabilities.getD []) 0 = some [1/3, 1/3, 1/6] := by
  refine ⟨?_, ?_, ?_⟩ <;>
    norm_num [fit, estimate_conditional_probabilities, total_words_for_class, List.foldl,
      addSum, condStep, alookup, estimate_class_priors, countLabels, bump]


/-! ## The conditional-probability estimator (C3, C9) -/

theorem alookup_addSum (m : List (Label × ℚ)) (l x : Label) (v : ℚ) :
    alookup (addSum m l v) x =
      if x = l then some ((alookup m x).getD 0 + v) else alookup m x := by
  induction m with
  | nil => by_cases h : x = l <;> simp [addSum, alookup, eq_comm, h]
  | cons p rest ih =>
      obtain ⟨k, c⟩ := p
      by_cases hkl : k = l <;> by_cases hkx : k = x <;>
        simp_all [addSum, alookup, ih] <;> simp_all [eq_comm]

theorem alookup_foldl_addSum_getD (ps : List (Label × List ℚ))
    (m : List (Label × ℚ)) (x : Label) :
    (alookup (ps.foldl (fun m p => addSum m p.1 p.2.sum) m) x).getD 0
      = (alookup m x).getD 0
        + ((ps.filter (fun p => p.1 = x)).map (fun p => p.2.sum)).sum := by
  induction ps generalizing m with
  | nil => simp
  | cons q ps ih =>
      rw [List.foldl_cons, ih, alookup_addSum]
      by_cases h : q.1 = x
      · simp [List.filter_cons, h, eq_comm]
        ring
      · have h' : ¬ x = q.1 := fun hh => h hh.symm
        simp [List.filter_cons, h, h', eq_comm]

theorem alookup_condStep (m : List (Label × List ℚ)) (l x : Label) (fv av : List ℚ) :
    alookup (condStep m l fv av) x =
      if x = l then
        (match alookup m x with
         | none => some fv
         | some v => some (List.zipWith (· + ·) v av))
      else alookup m x := by
  induction m with
  | nil => by_cases h : x = l <;> simp [condStep, alookup, eq_comm, h]
  | cons p rest ih =>
      obtain ⟨k, v⟩ := p
      by_cases hkl : k = l <;> by_cases hkx : k = x <;>
        simp_all [condStep, alookup, ih] <;> simp_all [eq_comm]

theorem alookup_foldl_condStep (fv av : Label → List ℚ → List ℚ)
    (ps : List (Label × List ℚ)) (m : List (Label × List ℚ)) (x : Label) :
    alookup (ps.foldl (fun m p => condStep m p.1 (fv p.1 p.2) (av p.1 p.2)) m) x =
      match alookup m x with
      | some v => some ((ps.filter (fun p => p.1 = x)).foldl
          (fun acc p => List.zipWith (· + ·) acc (av x p.2)) v)
      | none =>
          match ps.filter (fun p => p.1 = x) with
          | [] => none
          | q :: qs => some (qs.foldl
              (fun acc p => List.zipWith (· + ·) acc (av x p.2)) (fv x q.2)) := by
  induction ps generalizing m with
  | nil => cases h : alookup m x <;> simp [h]
  | cons q ps ih =>
      rw [List.foldl_cons, ih, alookup_condStep]
      by_cases h : q.1 = x
      · cases hm : alookup m x with
        | none => simp [h, hm, List.filter_cons]
        | some v => simp [h, hm, List.filter_cons]
      · have h' : ¬ x = q.1 := fun hh => h hh.symm
        cases hm : alookup m x with
        | none => simp [h, h', hm, List.filter_cons]
        | some v => simp [h, h', hm, List.filter_cons]


/-- Stated from the spec (§4.1): the training rows belonging to class `c`, in
encounter order. -/
def spec_rows (features : List (List ℚ)) (labels : List Label) (c : Label) :
    List (List ℚ) :=
  ((labels.zip features).filter (fun p => p.1 = c)).map Prod.snd

/-- Stated from the spec (§4.1): `total_words(c)` is the sum of all components of
all feature rows of class `c`. -/
def spec_total_words (features : List (List ℚ)) (labels : List Label) (c : Label) : ℚ :=
  ((spec_rows features labels c).map (fun r => r.sum)).sum

/-- Stated from the spec (§4.1): the conditional vector of class `c` is the
in-encounter-order accumulated sum in which the first row of class `c`
contributes `(row + delta) / D` and each later row contributes `row / D`, with
`D = V·delta + total_words(c)`; no vector exists for an unobserved class. -/
def spec_conditional (features : List (List ℚ)) (labels : List Label) (c : Label)
    (delta vocab : ℚ) : Option (List ℚ) :=
  let D := vocab * delta + spec_total_words features labels c
  match spec_rows features labels c with
  | [] => none
  | r :: rs =>
      some (rs.foldl (fun acc row => List.zipWith (· + ·) acc (row.map (fun x => x / D)))
        (r.map (fun x => (x + delta) / D)))

theorem total_words_matches_spec (features : List (List ℚ)) (labels : List Label)
    (c : Label) :
    (alookup (total_words_for_class features labels) c).getD 0
      = spec_total_words features labels c := by
  rw [total_words_for_class, alookup_foldl_addSum_getD]
  simp [spec_total_words, spec_rows, alookup, List.map_map]
  rfl

/-- C3: with the vocabulary size that `fit` passes (the NUMBER OF LABELS, not the
feature width), the conditional-probability dictionary maps each observed class
`c` to exactly the spec's asymmetric accumulation: first row `(row + δ)/D`,
later rows `row/D`, `D = V·δ + total_words(c)` — and no other class. -/
theorem conditional_matches_spec (features : List (List ℚ)) (labels : List Label)
    (delta vocab : ℚ) (c : Label) :
    alookup (estimate_conditional_probabilities features labels delta vocab) c
      = spec_conditional features labels c delta vocab := by
  rw [estimate_conditional_probabilities]
  rw [alookup_foldl_condStep
    (fun l row => row.map (fun x =>
      (x + delta) / (vocab * delta
        + (alookup (total_words_for_class features labels) l).getD 0)))
    (fun l row => row.map (fun x =>
      x / (vocab * delta
        + (alookup (total_words_for_class features labels) l).getD 0)))]
  rw [spec_conditional]
  simp only [alookup, total_words_matches_spec]
  cases hf : (labels.zip features).filter (fun p => p.1 = c) with
  | nil =>
      have : spec_rows features labels c = [] := by simp [spec_rows, hf]
      rw [this]
  | cons q qs =>
      have : spec_rows features labels c = q.2 :: qs.map Prod.snd := by
        simp [spec_rows, hf]
      rw [this]
      simp [List.foldl_map]

/-- C3: the conditional-probability dictionary maps each observed class `c` to
exactly the spec's asymmetric in-encounter-order accumulation — first row of
the class contributes `(row + δ)/D`, later rows `row/D`, where
`D = V·δ + total_words(c)` — and maps no other class; and the `V` that `fit`
passes is its stored `vocab_size`, the NUMBER OF LABELS, not the feature
width. -/
theorem claim_C3_conditional_matches_spec (features : List (List ℚ)) (labels : List Label)
    (delta : ℚ) :
    (∀ c : Label,
      alookup (estimate_conditional_probabilities features labels delta
          (labels.length : ℚ)) c
        = spec_conditional features labels c delta (labels.length : ℚ)) ∧
    (fit features labels delta).conditional_probabilities
        = some (estimate_conditional_probabilities features labels delta
            (labels.length : ℚ)) ∧
    (fit features labels delta).vocab_size = some labels.length :=
  ⟨fun c => conditional_matches_spec features labels delta (labels.length : ℚ) c, rfl, rfl⟩


theorem zipWith_add_pos {v w : List ℚ} (hv : ∀ x ∈ v, 0 < x) (hw : ∀ x ∈ w, 0 ≤ x) :
    ∀ x ∈ List.zipWith (· + ·) v w, 0 < x := by
  induction v generalizing w with
  | nil => simp
  | cons a v ih =>
      cases w with
      | nil => simp
      | cons b w =>
          simp only [List.zipWith_cons_cons]
          intro x hx
          rcases List.mem_cons.mp hx with rfl | hx
          · exact add_pos_of_pos_of_nonneg (hv a (by simp)) (hw b (by simp))
          · exact ih (fun y hy => hv y (by simp [hy])) (fun y hy => hw y (by simp [hy])) x hx

theorem condStep_forall_pos {m : List (Label × List ℚ)} {l : Label} {fv av : List ℚ}
    (hm : ∀ p ∈ m, ∀ x ∈ p.2, 0 < x) (hfv : ∀ x ∈ fv, 0 < x) (hav : ∀ x ∈ av, 0 ≤ x) :
    ∀ p ∈ condStep m l fv av, ∀ x ∈ p.2, 0 < x := by
  induction m with
  | nil => simpa [condStep] using hfv
  | cons q rest ih =>
      obtain ⟨k, v⟩ := q
      by_cases h : k = l
      · simp only [condStep, if_pos h]
        intro p hp
        rcases List.mem_cons.mp hp with rfl | hp
        · exact zipWith_add_pos (hm (k, v) (by simp)) hav
        · exact hm p (by simp [hp])
      · simp only [condStep, if_neg h]
        intro p hp
        rcases List.mem_cons.mp hp with rfl | hp
        · exact hm (k, v) (by simp)
        · exact ih (fun r hr => hm r (by simp [hr])) p hp

theorem condFold_forall_pos (fv av : Label → List ℚ → List ℚ)
    (ps : List (Label × List ℚ)) (m : List (Label × List ℚ))
    (hm : ∀ p ∈ m, ∀ x ∈ p.2, 0 < x)
    (hfv : ∀ p ∈ ps, ∀ x ∈ fv p.1 p.2, 0 < x)
    (hav : ∀ p ∈ ps, ∀ x ∈ av p.1 p.2, 0 ≤ x) :
    ∀ p ∈ ps.foldl (fun m p => condStep m p.1 (fv p.1 p.2) (av p.1 p.2)) m,
      ∀ x ∈ p.2, 0 < x := by
  induction ps generalizing m with
  | nil => simpa using hm
  | cons q ps ih =>
      rw [List.foldl_cons]
      exact ih _ (condStep_forall_pos hm (hfv q (by simp)) (hav q (by simp)))
        (fun p hp => hfv p (by simp [hp])) (fun p hp => hav p (by simp [hp]))

theorem alookup_mem {α : Type} {m : List (Label × α)} {c : Label} {v : α}
    (h : alookup m c = some v) : (c, v) ∈ m := by
  induction m with
  | nil => simp [alookup] at h
  | cons q rest ih =>
      obtain ⟨k, w⟩ := q
      by_cases hk : k = c
      · subst hk
        simp [alookup] at h
        simp [h]
      · simp [alookup, hk] at h
        exact List.mem_cons_of_mem _ (ih h)

theorem addSum_forall_nonneg {m : List (Label × ℚ)} {l : Label} {v : ℚ}
    (hm : ∀ p ∈ m, 0 ≤ p.2) (hv : 0 ≤ v) : ∀ p ∈ addSum m l v, 0 ≤ p.2 := by
  induction m with
  | nil =>
      intro p hp
      simp [addSum] at hp
      simp [hp, hv]
  | cons q rest ih =>
      obtain ⟨k, c⟩ := q
      by_cases h : k = l
      · simp only [addSum, if_pos h]
        intro p hp
        rcases List.mem_cons.mp hp with rfl | hp
        · exact add_nonneg (hm (k, c) (by simp)) hv
        · exact hm p (by simp [hp])
      · simp only [addSum, if_neg h]
        intro p hp
        rcases List.mem_cons.mp hp with rfl | hp
        · exact hm (k, c) (by simp)
        · exact ih (fun r hr => hm r (by simp [hr])) p hp

theorem addSum_fold_forall_nonneg (ps : List (Label × List ℚ)) (m : List (Label × ℚ))
    (hm0 : ∀ p ∈ m, 0 ≤ p.2) (hps : ∀ p ∈ ps, (0:ℚ) ≤ p.2.sum) :
    ∀ p ∈ ps.foldl (fun m p => addSum m p.1 p.2.sum) m, 0 ≤ p.2 := by
  induction ps generalizing m with
  | nil => simpa using hm0
  | cons q ps ih =>
      rw [List.foldl_cons]
      exact ih _ (addSum_forall_nonneg hm0 (hps q (by simp)))
        (fun p hp => hps p (by simp [hp]))

theorem total_words_getD_nonneg (features : List (List ℚ)) (labels : List Label)
    (hF : ∀ row ∈ features, ∀ x ∈ row, 0 ≤ x) (c : Label) :
    0 ≤ (alookup (total_words_for_class features labels) c).getD 0 := by
  cases h : alookup (total_words_for_class features labels) c with
  | none => simp
  | some v =>
      have hv := alookup_mem h
      have hall : ∀ p ∈ total_words_for_class features labels, 0 ≤ p.2 := by
        rw [total_words_for_class]
        refine addSum_fold_forall_nonneg _ _ (by simp) ?_
        intro p hp
        have hrow : p.2 ∈ features := (List.of_mem_zip hp).2
        exact List.sum_nonneg (fun x hx => hF p.2 hrow x hx)
      simpa using hall (c, v) hv

/-- C9: for non-negative feature counts, at least one training example, and
`delta > 0`, every component of every conditional vector stored by `fit`
(which passes `vocab_size = labels.length`) is strictly positive. -/
theorem claim_C9_conditional_positive (features : List (List ℚ)) (labels : List Label)
    (delta : ℚ) (hdelta : 0 < delta) (hne : labels ≠ [])
    (hF : ∀ row ∈ features, ∀ x ∈ row, 0 ≤ x) :
    ∃ m, (fit features labels delta).conditional_probabilities = some m ∧
      ∀ p ∈ m, ∀ x ∈ p.2, 0 < x := by
  have hd : ∀ l : Label, 0 < (labels.length : ℚ) * delta
      + (alookup (total_words_for_class features labels) l).getD 0 := by
    intro l
    have h1 : (1 : ℚ) ≤ (labels.length : ℚ) := by
      have := List.length_pos.mpr hne
      exact_mod_cast this
    have h2 := total_words_getD_nonneg features labels hF l
    nlinarith
  refine ⟨_, rfl, ?_⟩
  rw [estimate_conditional_probabilities]
  refine condFold_forall_pos
    (fun l row => row.map (fun x => (x + delta) / ((labels.length : ℚ) * delta
      + (alookup (total_words_for_class features labels) l).getD 0)))
    (fun l row => row.map (fun x => x / ((labels.length : ℚ) * delta
      + (alookup (total_words_for_class features labels) l).getD 0)))
    _ [] (by simp) ?_ ?_
  · intro p hp x hx
    obtain ⟨y, hy, rfl⟩ := List.mem_map.mp hx
    have hrow : p.2 ∈ features := (List.of_mem_zip hp).2
    have hy0 : 0 ≤ y := hF p.2 hrow y hy
    exact div_pos (by linarith) (hd p.1)
  · intro p hp x hx
    obtain ⟨y, hy, rfl⟩ := List.mem_map.mp hx
    have hrow : p.2 ∈ features := (List.of_mem_zip hp).2
    have hy0 : 0 ≤ y := hF p.2 hrow y hy
    exact div_nonneg hy0 (le_of_lt (hd p.1))

/-- C9 witness: the concrete conclusion at a 2-example, 2-word training set. -/
theorem claim_C9_conditional_positive_witness :
    ((0:ℚ) < 1) ∧ (([0, 1] : List Label) ≠ []) ∧
    (∀ row ∈ ([[1, 0], [0, 1]] : List (List ℚ)), ∀ x ∈ row, 0 ≤ x) ∧
    (∃ m, (fit [[1, 0], [0, 1]] [0, 1] 1).conditional_probabilities = some m ∧
      ∀ p ∈ m, ∀ x ∈ p.2, 0 < x) :=
  ⟨zero_lt_one, by simp,
    by simp,
    claim_C9_conditional_positive [[1, 0], [0, 1]] [0, 1] 1 zero_lt_one (by simp) (by simp)⟩


/-! ## Posterior, arg-max and softmax machinery -/

theorem exceptMap_ok {α β : Type} (g : α → Except NBError β) (f : α → β) (l : List α)
    (h : ∀ x ∈ l, g x = Except.ok (f x)) : exceptMap g l = Except.ok (l.map f) := by
  induction l with
  | nil => simp [exceptMap]
  | cons a l ih =>
      rw [exceptMap, h a (by simp), ih (fun x hx => h x (by simp [hx]))]
      simp

theorem estimate_class_posteriors_ok (s : NBState) (feature : List ℚ)
    (cp : List (Label × ℚ)) (co : List (Label × List ℚ))
    (hcp : s.class_priors = some cp) (hco : s.conditional_probabilities = some co)
    (hkeys : ∀ lp ∈ sortPairs cp, (alookup co lp.1).isSome) :
    estimate_class_posteriors s feature
      = Except.ok ((sortPairs cp).map (fun lp =>
          Real.log (lp.2 : ℝ) + dotLogSum ((alookup co lp.1).getD []) feature)) := by
  obtain ⟨a, b, c⟩ := s
  simp only [NBState.class_priors] at hcp
  simp only [NBState.conditional_probabilities] at hco
  subst hcp
  subst hco
  show exceptMap _ (sortPairs cp) = _
  refine exceptMap_ok _ _ _ (fun lp hlp => ?_)
  obtain ⟨cond, hcond⟩ := Option.isSome_iff_exists.mp (hkeys lp hlp)
  simp [hcond]

theorem estimate_class_posteriors_err (s : NBState) (feature : List ℚ)
    (h : s.class_priors = none ∨ s.conditional_probabilities = none) :
    estimate_class_posteriors s feature = Except.error NBError.notTrained := by
  obtain ⟨a, b, c⟩ := s
  rcases h with h | h <;> simp only [NBState.class_priors, NBState.conditional_probabilities] at h <;>
    subst h
  · rfl
  · cases a <;> rfl

theorem sortPairs_perm (m : List (Label × ℚ)) : (sortPairs m).Perm m :=
  List.perm_insertionSort keyLE m

theorem sortPairs_keys_sorted_lt (m : List (Label × ℚ))
    (h : (m.map Prod.fst).Nodup) :
    ((sortPairs m).map Prod.fst).Sorted (· < ·) := by
  have hs : List.Pairwise keyLE (sortPairs m) := List.sorted_insertionSort keyLE m
  have hnd : ((sortPairs m).map Prod.fst).Nodup := by
    have hperm : ((sortPairs m).map Prod.fst).Perm (m.map Prod.fst) :=
      (sortPairs_perm m).map Prod.fst
    exact hperm.nodup_iff.mpr h
  rw [List.Nodup, List.pairwise_map] at hnd
  rw [List.Sorted, List.pairwise_map]
  exact (hs.and hnd).imp (fun hab => lt_of_le_of_ne hab.1 hab.2)


theorem argmaxFirst_lt_length : ∀ (l : List ℝ), l ≠ [] → argmaxFirst l < l.length
  | [_], _ => by simp [argmaxFirst]
  | x :: y :: ys, _ => by
      rw [argmaxFirst]
      by_cases h : maxList (y :: ys) ≤ x
      · rw [if_pos h]; simp
      · rw [if_neg h]
        have hrec := argmaxFirst_lt_length (y :: ys) (by simp)
        simpa using Nat.succ_lt_succ hrec

theorem getD_argmaxFirst_eq_maxList :
    ∀ (l : List ℝ), l ≠ [] → l.getD (argmaxFirst l) 0 = maxList l
  | [x], _ => by simp [argmaxFirst, maxList]
  | x :: y :: ys, _ => by
      rw [argmaxFirst, maxList]
      by_cases h : maxList (y :: ys) ≤ x
      · rw [if_pos h]
        simp [max_eq_left h]
      · rw [if_neg h]
        have hrec := getD_argmaxFirst_eq_maxList (y :: ys) (by simp)
        rw [List.getD_cons_succ, hrec, max_eq_right (le_of_not_le h)]

theorem getD_le_maxList :
    ∀ (l : List ℝ) (i : Nat), i < l.length → l.getD i 0 ≤ maxList l
  | [x], i, hi => by
      have h0 : i = 0 := by simpa using Nat.lt_one_iff.mp (by simpa using hi)
      subst h0
      simp [maxList]
  | x :: y :: ys, i, hi => by
      rw [maxList]
      cases i with
      | zero => simpa using le_max_left x (maxList (y :: ys))
      | succ i =>
          rw [List.getD_cons_succ]
          have hrec := getD_le_maxList (y :: ys) i (by simpa using hi)
          exact hrec.trans (le_max_right _ _)

theorem getD_lt_maxList_of_lt_argmaxFirst :
    ∀ (l : List ℝ) (i : Nat), i < argmaxFirst l → l.getD i 0 < maxList l
  | [], i, hi => by simp [argmaxFirst] at hi
  | [x], i, hi => by simp [argmaxFirst] at hi
  | x :: y :: ys, i, hi => by
      rw [argmaxFirst] at hi
      by_cases h : maxList (y :: ys) ≤ x
      · rw [if_pos h] at hi
        exact absurd hi (Nat.not_lt_zero i)
      · rw [if_neg h] at hi
        rw [maxList, max_eq_right (le_of_not_le h)]
        cases i with
        | zero => simpa using not_le.mp h
        | succ i =>
            rw [List.getD_cons_succ]
            exact getD_lt_maxList_of_lt_argmaxFirst (y :: ys) i (by omega)

theorem maxList_map_mono (g : ℝ → ℝ) (hg : Monotone g) :
    ∀ (l : List ℝ), l ≠ [] → maxList (l.map g) = g (maxList l)
  | [x], _ => by simp [maxList]
  | x :: y :: ys, _ => by
      have hrec := maxList_map_mono g hg (y :: ys) (by simp)
      simp only [List.map_cons] at hrec ⊢
      rw [maxList, maxList, hrec, hg.map_max]

theorem argmaxFirst_map_strictMono (g : ℝ → ℝ) (hg : StrictMono g) :
    ∀ (l : List ℝ), argmaxFirst (l.map g) = argmaxFirst l
  | [] => by simp
  | [x] => by simp [argmaxFirst]
  | x :: y :: ys => by
      have hrec := argmaxFirst_map_strictMono g hg (y :: ys)
      have hmax : maxList ((y :: ys).map g) = g (maxList (y :: ys)) :=
        maxList_map_mono g hg.monotone (y :: ys) (by simp)
      simp only [List.map_cons] at hrec hmax ⊢
      rw [argmaxFirst, argmaxFirst, hmax]
      by_cases h : maxList (y :: ys) ≤ x
      · rw [if_pos (hg.le_iff_le.mpr h), if_pos h]
      · rw [if_neg (fun hh => h (hg.le_iff_le.mp hh)), if_neg h, hrec]

theorem exp_sum_pos (l : List ℝ) (h : l ≠ []) : 0 < (l.map Real.exp).sum := by
  cases l with
  | nil => simp at h
  | cons x xs =>
      simp only [List.map_cons, List.sum_cons]
      have h1 : 0 < Real.exp x := Real.exp_pos x
      have h2 : 0 ≤ (xs.map Real.exp).sum :=
        List.sum_nonneg (fun y hy => by
          obtain ⟨z, _, rfl⟩ := List.mem_map.mp hy
          exact le_of_lt (Real.exp_pos z))
      linarith

theorem softmax_nonneg (l : List ℝ) : ∀ x ∈ softmax l, 0 ≤ x := by
  intro x hx
  have hne : l ≠ [] := by
    rintro rfl
    simp [softmax] at hx
  obtain ⟨z, _, rfl⟩ := List.mem_map.mp hx
  exact div_nonneg (le_of_lt (Real.exp_pos z)) (le_of_lt (exp_sum_pos l hne))

theorem softmax_sum_one (l : List ℝ) (h : l ≠ []) : (softmax l).sum = 1 := by
  rw [softmax]
  rw [show (l.map (fun x => Real.exp x / (l.map Real.exp).sum))
      = ((l.map Real.exp).map (fun x => x / (l.map Real.exp).sum)) from by
    rw [List.map_map]
    rfl]
  rw [sum_map_div, div_self (ne_of_gt (exp_sum_pos l h))]

theorem softmax_length (l : List ℝ) : (softmax l).length = l.length := by
  simp [softmax]

theorem argmaxFirst_softmax (l : List ℝ) (h : l ≠ []) :
    argmaxFirst (softmax l) = argmaxFirst l := by
  have hS : 0 < (l.map Real.exp).sum := exp_sum_pos l h
  rw [softmax]
  refine argmaxFirst_map_strictMono _ (fun a b hab => ?_) l
  have h1 : Real.exp a < Real.exp b := Real.exp_lt_exp.mpr hab
  rw [div_eq_mul_inv, div_eq_mul_inv]
  exact mul_lt_mul_of_pos_right h1 (inv_pos.mpr hS)


/-! ## Claims about inference (C2, C4, C5, C8, C10) -/

theorem predict_and_proba_ok (s : NBState) (feature : List ℚ)
    (cp : List (Label × ℚ)) (co : List (Label × List ℚ))
    (hcp : s.class_priors = some cp) (hco : s.conditional_probabilities = some co)
    (hcpne : cp ≠ []) (hcone : co ≠ [])
    (hkeys : ∀ lp ∈ sortPairs cp, (alookup co lp.1).isSome) :
    ∃ ps, estimate_class_posteriors s feature = Except.ok ps ∧ ps ≠ [] ∧
      ps.length = cp.length ∧
      predict s feature = Except.ok (argmaxFirst ps) ∧
      predict_proba s feature = Except.ok (softmax ps) := by
  obtain ⟨q, cps, rfl⟩ := List.exists_cons_of_ne_nil hcpne
  obtain ⟨r, cos, rfl⟩ := List.exists_cons_of_ne_nil hcone
  obtain ⟨a, b, c⟩ := s
  simp only [NBState.class_priors] at hcp
  simp only [NBState.conditional_probabilities] at hco
  subst hcp
  subst hco
  have hok := estimate_class_posteriors_ok ⟨some (q :: cps), some (r :: cos), c⟩ feature
    (q :: cps) (r :: cos) rfl rfl hkeys
  refine ⟨_, hok, ?_, ?_, ?_, ?_⟩
  · have : (sortPairs (q :: cps)).length = (q :: cps).length :=
      (sortPairs_perm (q :: cps)).length_eq
    intro hnil
    rw [List.map_eq_nil_iff] at hnil
    rw [hnil] at this
    simp at this
  · rw [List.length_map, (sortPairs_perm (q :: cps)).length_eq]
  · show (estimate_class_posteriors _ feature).map argmaxFirst = _
    rw [hok]
    rfl
  · show (estimate_class_posteriors _ feature).map softmax = _
    rw [hok]
    rfl


/-- Stated from the spec (§4): `log(prior[class]) + Σ_j log(conditional[class][j])
· feature[j]`, the sum ranging over the feature vector's positions. -/
noncomputable def spec_log_posterior (prior : ℚ) (cond : List ℚ) (feature : List ℚ) : ℝ :=
  Real.log (prior : ℝ)
    + ∑ j ∈ Finset.range feature.length,
        Real.log ((cond.getD j 0 : ℚ) : ℝ) * ((feature.getD j 0 : ℚ) : ℝ)

theorem dotLogSum_eq_spec_sum (cond feature : List ℚ) (h : cond.length = feature.length) :
    dotLogSum cond feature
      = ∑ j ∈ Finset.range feature.length,
          Real.log ((cond.getD j 0 : ℚ) : ℝ) * ((feature.getD j 0 : ℚ) : ℝ) := by
  induction cond generalizing feature with
  | nil =>
      cases feature with
      | nil => simp [dotLogSum]
      | cons b bs => simp at h
  | cons a as ih =>
      cases feature with
      | nil => simp at h
      | cons b bs =>
          have h' : as.length = bs.length := by simpa using h
          have hdz : dotLogSum (a :: as) (b :: bs)
              = Real.log (a : ℝ) * (b : ℝ) + dotLogSum as bs := by
            simp [dotLogSum]
          rw [hdz, ih bs h', List.length_cons, Finset.sum_range_succ']
          simp only [List.getD_cons_succ, List.getD_cons_zero]
          ring


/-- C5 amended: `predict` and `predict_proba` raise the not-trained error whenever
either mapping is unset (`None`) or empty, while `estimate_class_posteriors`
raises it only when a mapping is unset (`None`); in particular all three raise
before any call to `fit`. -/
theorem claim_C5_not_trained_guards (s : NBState) (feature : List ℚ)
    (h : s.class_priors = none ∨ s.class_priors = some []
       ∨ s.conditional_probabilities = none ∨ s.conditional_probabilities = some []) :
    predict s feature = Except.error NBError.notTrained ∧
    predict_proba s feature = Except.error NBError.notTrained ∧
    ((s.class_priors = none ∨ s.conditional_probabilities = none) →
      estimate_class_posteriors s feature = Except.error NBError.notTrained) := by
  obtain ⟨a, b, c⟩ := s
  refine ⟨?_, ?_, fun h' => estimate_class_posteriors_err _ _ h'⟩ <;>
  · rcases h with h | h | h | h <;>
      simp only [NBState.class_priors, NBState.conditional_probabilities] at h <;>
      subst h
    · cases b with
      | none => rfl
      | some l => cases l <;> rfl
    · cases b with
      | none => rfl
      | some l => cases l <;> rfl
    · cases a with
      | none => rfl
      | some l => cases l <;> rfl
    · cases a with
      | none => rfl
      | some l => cases l <;> rfl

/-- C5 witness: before `fit` (the freshly constructed state) every inference
operation raises the not-trained error. -/
theorem claim_C5_not_trained_guards_witness :
    (initial.class_priors = none ∨ initial.class_priors = some []
       ∨ initial.conditional_probabilities = none
       ∨ initial.conditional_probabilities = some []) ∧
    (predict initial [] = Except.error NBError.notTrained ∧
     predict_proba initial [] = Except.error NBError.notTrained ∧
     ((initial.class_priors = none ∨ initial.conditional_probabilities = none) →
       estimate_class_posteriors initial [] = Except.error NBError.notTrained)) :=
  ⟨Or.inl rfl, claim_C5_not_trained_guards initial [] (Or.inl rfl)⟩

/-- C5 counterexample: with both mappings present but EMPTY (as `fit` produces on
an empty training set), `estimate_class_posteriors` does NOT raise — its guard
only checks for `None` — and instead returns an empty posterior vector. -/
theorem claim_C5_counterexample :
    (fit [] [] 1).class_priors = some [] ∧
    (fit [] [] 1).conditional_probabilities = some [] ∧
    estimate_class_posteriors (fit [] [] 1) [] = Except.ok [] := by
  refine ⟨rfl, rfl, ?_⟩
  rfl

/-- C2 counterexample: train on class labels 5 and 7 (not a contiguous 0-based
range).  On the all-zero feature the two log-posteriors tie, so the claim says
the smaller class LABEL, 5, is returned; the code returns the rank INDEX 0,
which is not an observed class label at all. -/
theorem claim_C2_counterexample :
    predict (fit [[1, 0], [0, 1]] [5, 7] 1) [0, 0] = Except.ok 0 ∧
    (sortPairs ((fit [[1, 0], [0, 1]] [5, 7] 1).class_priors.getD [])).map Prod.fst
      = [5, 7] ∧
    (0 : Int) ∉ ([5, 7] : List Label) := by
  have hs : fit [[1, 0], [0, 1]] [5, 7] 1
      = ⟨some [(5, 1/2), (7, 1/2)], some [(5, [2/3, 1/3]), (7, [1/3, 2/3])], some 2⟩ := by
    norm_num [fit, NBState.mk.injEq, estimate_class_priors, countLabels, List.foldl, bump,
      estimate_conditional_probabilities, total_words_for_class, addSum, condStep, alookup]
  have hok := estimate_class_posteriors_ok
    ⟨some [(5, 1/2), (7, 1/2)], some [(5, [2/3, 1/3]), (7, [1/3, 2/3])], some 2⟩ [0, 0]
    [(5, 1/2), (7, 1/2)] [(5, [2/3, 1/3]), (7, [1/3, 2/3])] rfl rfl
    (by simp [sortPairs, List.insertionSort, List.orderedInsert, keyLE, alookup])
  refine ⟨?_, ?_, by simp⟩
  · rw [hs]
    show (estimate_class_posteriors
      ⟨some [(5, 1/2), (7, 1/2)], some [(5, [2/3, 1/3]), (7, [1/3, 2/3])], some 2⟩
      [0, 0]).map argmaxFirst = Except.ok 0
    rw [hok]
    simp [Except.map, sortPairs, List.insertionSort, List.orderedInsert, keyLE, alookup,
      dotLogSum, argmaxFirst, maxList]
  · rw [hs]
    simp [sortPairs, List.insertionSort, List.orderedInsert, keyLE]


/-! ## Trained-state structure and the fit-level claims (C2, C4, C8, C10) -/

theorem alookup_isSome_iff_mem_keys {α : Type} (m : List (Label × α)) (x : Label) :
    (alookup m x).isSome ↔ x ∈ m.map Prod.fst := by
  induction m with
  | nil => simp [alookup]
  | cons q rest ih =>
      obtain ⟨k, v⟩ := q
      by_cases h : k = x
      · simp [alookup, h]
      · have h' : ¬ x = k := fun hh => h hh.symm
        simp [alookup, h, h', ih]

theorem mem_keys_countLabels_iff (L : List Label) (x : Label) :
    x ∈ (countLabels L).map Prod.fst ↔ x ∈ L := by
  rw [← alookup_isSome_iff_mem_keys, countLabels, alookup_foldl_bump_isSome]
  simp [alookup]

theorem keys_estimate_class_priors (L : List Label) :
    (estimate_class_priors L).map Prod.fst = (countLabels L).map Prod.fst := by
  rw [estimate_class_priors, List.map_map]
  rfl

theorem bump_keys (m : List (Label × Nat)) (l : Label) :
    (bump m l).map Prod.fst
      = if l ∈ m.map Prod.fst then m.map Prod.fst else m.map Prod.fst ++ [l] := by
  induction m with
  | nil => simp [bump]
  | cons q rest ih =>
      obtain ⟨k, c⟩ := q
      by_cases h : k = l
      · simp [bump, h]
      · have h' : ¬ l = k := fun hh => h hh.symm
        by_cases hm : l ∈ rest.map Prod.fst <;> simp [bump, h, h', hm, ih]

theorem foldl_bump_keys_nodup (L : List Label) (m : List (Label × Nat))
    (hm : (m.map Prod.fst).Nodup) : ((L.foldl bump m).map Prod.fst).Nodup := by
  induction L generalizing m with
  | nil => simpa using hm
  | cons a L ih =>
      rw [List.foldl_cons]
      refine ih _ ?_
      rw [bump_keys]
      by_cases h : a ∈ m.map Prod.fst
      · simpa [h] using hm
      · rw [if_neg h]
        exact List.Nodup.append hm (List.nodup_singleton a)
          (by simpa [List.disjoint_singleton] using h)

theorem countLabels_keys_nodup (L : List Label) :
    ((countLabels L).map Prod.fst).Nodup := by
  rw [countLabels]
  exact foldl_bump_keys_nodup L [] (by simp)

theorem spec_rows_ne_nil (features : List (List ℚ)) (labels : List Label)
    (hlen : features.length = labels.length) (c : Label) (hc : c ∈ labels) :
    spec_rows features labels c ≠ [] := by
  have hmap : (labels.zip features).map Prod.fst = labels :=
    List.map_fst_zip labels features (le_of_eq hlen.symm)
  rw [← hmap] at hc
  obtain ⟨p, hp, hpc⟩ := List.mem_map.mp hc
  rw [spec_rows]
  simp only [ne_eq, List.map_eq_nil_iff, List.filter_eq_nil_iff]
  intro hall
  exact absurd hpc (by simpa using hall p hp)

theorem alookup_cond_isSome (features : List (List ℚ)) (labels : List Label)
    (delta vocab : ℚ) (hlen : features.length = labels.length)
    (c : Label) (hc : c ∈ labels) :
    (alookup (estimate_conditional_probabilities features labels delta vocab) c).isSome := by
  rw [conditional_matches_spec]
  rw [spec_conditional]
  cases h : spec_rows features labels c with
  | nil => exact absurd h (spec_rows_ne_nil features labels hlen c hc)
  | cons r rs => simp

theorem trained_keys_lookup (features : List (List ℚ)) (labels : List Label)
    (delta vocab : ℚ) (hlen : features.length = labels.length) :
    ∀ lp ∈ sortPairs (estimate_class_priors labels),
      (alookup (estimate_conditional_probabilities features labels delta vocab) lp.1).isSome := by
  intro lp hlp
  have hmem : lp ∈ estimate_class_priors labels := ((sortPairs_perm _).mem_iff).mp hlp
  have hkey : lp.1 ∈ (estimate_class_priors labels).map Prod.fst :=
    List.mem_map_of_mem Prod.fst hmem
  rw [keys_estimate_class_priors, mem_keys_countLabels_iff] at hkey
  exact alookup_cond_isSome features labels delta vocab hlen lp.1 hkey

theorem estimate_class_priors_ne_nil (labels : List Label) (hne : labels ≠ []) :
    estimate_class_priors labels ≠ [] := by
  obtain ⟨a, L', rfl⟩ := List.exists_cons_of_ne_nil hne
  intro h
  have : a ∈ (estimate_class_priors (a :: L')).map Prod.fst := by
    rw [keys_estimate_class_priors, mem_keys_countLabels_iff]
    simp
  rw [h] at this
  simp at this

theorem estimate_conditional_probabilities_ne_nil (features : List (List ℚ))
    (labels : List Label) (delta vocab : ℚ)
    (hne : labels ≠ []) (hlen : features.length = labels.length) :
    estimate_conditional_probabilities features labels delta vocab ≠ [] := by
  obtain ⟨a, L', hL⟩ := List.exists_cons_of_ne_nil hne
  have hs := alookup_cond_isSome features labels delta vocab hlen a (by rw [hL]; simp)
  intro h
  rw [h] at hs
  simp [alookup] at hs


theorem foldl_zipWith_length (w : Nat) (g : ℚ → ℚ) (rows : List (List ℚ)) (acc : List ℚ)
    (hacc : acc.length = w) (hrows : ∀ row ∈ rows, row.length = w) :
    (rows.foldl (fun acc row => List.zipWith (· + ·) acc (row.map g)) acc).length = w := by
  induction rows generalizing acc with
  | nil => simpa using hacc
  | cons r rs ih =>
      rw [List.foldl_cons]
      refine ih _ ?_ (fun row hrow => hrows row (by simp [hrow]))
      simp [List.length_zipWith, hacc, hrows r (by simp)]

theorem spec_conditional_length (features : List (List ℚ)) (labels : List Label)
    (c : Label) (delta vocab : ℚ) (w : Nat)
    (hW : ∀ row ∈ features, row.length = w) (v : List ℚ)
    (h : spec_conditional features labels c delta vocab = some v) :
    v.length = w := by
  have hrows : ∀ row ∈ spec_rows features labels c, row.length = w := by
    intro row hrow
    rw [spec_rows] at hrow
    obtain ⟨p, hp, rfl⟩ := List.mem_map.mp hrow
    exact hW _ (List.of_mem_zip (List.mem_of_mem_filter hp)).2
  rw [spec_conditional] at h
  cases hr : spec_rows features labels c with
  | nil =>
      rw [hr] at h
      simp at h
  | cons r rs =>
      rw [hr] at h
      simp only [Option.some.injEq] at h
      subst h
      refine foldl_zipWith_length w _ rs _ ?_ ?_
      · simp [hrows r (by rw [hr]; simp)]
      · intro row hrow
        exact hrows row (by rw [hr]; simp [hrow])

theorem trained_cond_length (features : List (List ℚ)) (labels : List Label)
    (delta vocab : ℚ) (w : Nat)
    (hlen : features.length = labels.length) (hW : ∀ row ∈ features, row.length = w) :
    ∀ lp ∈ sortPairs (estimate_class_priors labels),
      ((alookup (estimate_conditional_probabilities features labels delta vocab)
        lp.1).getD []).length = w := by
  intro lp hlp
  have hs := trained_keys_lookup features labels delta vocab hlen lp hlp
  obtain ⟨v, hv⟩ := Option.isSome_iff_exists.mp hs
  rw [hv]
  rw [conditional_matches_spec] at hv
  simpa using spec_conditional_length features labels lp.1 delta vocab w hW v hv

/-- C4: for every classifier trained by `fit` (aligned features/labels, all
feature rows of the inference feature's width), the log-posterior vector is
indexed by the rank of each observed class label in ascending order — the
stored labels are exactly the observed ones — and entry `i` is
`log(prior) + Σ_j log(conditional[j]) · feature[j]` for the `i`-th smallest
label. -/
theorem claim_C4_posteriors_sorted_formula (features : List (List ℚ)) (labels : List Label)
    (delta : ℚ) (feature : List ℚ)
    (hlen : features.length = labels.length)
    (hW : ∀ row ∈ features, row.length = feature.length) :
    ∃ ps, estimate_class_posteriors (fit features labels delta) feature = Except.ok ps ∧
      ((sortPairs (estimate_class_priors labels)).map Prod.fst).Sorted (· < ·) ∧
      (sortPairs (estimate_class_priors labels)).Perm (estimate_class_priors labels) ∧
      (∀ x : Label, x ∈ (estimate_class_priors labels).map Prod.fst ↔ x ∈ labels) ∧
      ps.length = (estimate_class_priors labels).length ∧
      ∀ i, i < ps.length →
        ps.getD i 0 = spec_log_posterior
          ((sortPairs (estimate_class_priors labels)).getD i (0, 0)).2
          ((alookup (estimate_conditional_probabilities features labels delta
              (labels.length : ℚ))
            ((sortPairs (estimate_class_priors labels)).getD i (0, 0)).1).getD [])
          feature := by
  have hkeys := trained_keys_lookup features labels delta (labels.length : ℚ) hlen
  have hnodup : ((estimate_class_priors labels).map Prod.fst).Nodup := by
    rw [keys_estimate_class_priors]
    exact countLabels_keys_nodup labels
  have hok := estimate_class_posteriors_ok (fit features labels delta) feature
    (estimate_class_priors labels)
    (estimate_conditional_probabilities features labels delta (labels.length : ℚ))
    rfl rfl hkeys
  have hlenv := trained_cond_length features labels delta (labels.length : ℚ)
    feature.length hlen hW
  refine ⟨_, hok, sortPairs_keys_sorted_lt _ hnodup, sortPairs_perm _, ?_, ?_, ?_⟩
  · intro x
    rw [keys_estimate_class_priors, mem_keys_countLabels_iff]
  · rw [List.length_map, (sortPairs_perm _).length_eq]
  · intro i hi
    rw [List.length_map] at hi
    rw [List.getD_eq_getElem _ _ (by simpa using hi), List.getElem_map,
      List.getD_eq_getElem _ _ hi]
    rw [spec_log_posterior, dotLogSum_eq_spec_sum _ _ (hlenv _ (List.getElem_mem hi))]

/-- C2 amended: for every classifier trained by `fit` on a nonempty training set,
`predict` returns the POSITION (rank index under ascending-label order) of the
first maximal log-posterior — ties go to the smaller index — not the class
label stored at that position. -/
theorem claim_C2_predict_rank_index (features : List (List ℚ)) (labels : List Label)
    (delta : ℚ) (feature : List ℚ)
    (hne : labels ≠ []) (hlen : features.length = labels.length) :
    ∃ ps, estimate_class_posteriors (fit features labels delta) feature = Except.ok ps ∧
      predict (fit features labels delta) feature = Except.ok (argmaxFirst ps) ∧
      argmaxFirst ps < ps.length ∧
      ps.getD (argmaxFirst ps) 0 = maxList ps ∧
      (∀ i, i < ps.length → ps.getD i 0 ≤ maxList ps) ∧
      (∀ i, i < argmaxFirst ps → ps.getD i 0 < maxList ps) := by
  obtain ⟨ps, hps, hpsne, _, hpredict, _⟩ :=
    predict_and_proba_ok (fit features labels delta) feature
      (estimate_class_priors labels)
      (estimate_conditional_probabilities features labels delta (labels.length : ℚ))
      rfl rfl (estimate_class_priors_ne_nil labels hne)
      (estimate_conditional_probabilities_ne_nil features labels delta
        (labels.length : ℚ) hne hlen)
      (trained_keys_lookup features labels delta (labels.length : ℚ) hlen)
  exact ⟨ps, hps, hpredict, argmaxFirst_lt_length ps hpsne,
    getD_argmaxFirst_eq_maxList ps hpsne,
    fun i hi => getD_le_maxList ps i hi,
    fun i hi => getD_lt_maxList_of_lt_argmaxFirst ps i hi⟩

/-- C8: for every classifier trained by `fit` on a nonempty training set and any
feature vector, `predict_proba` is exactly the softmax of the log-posterior
vector: componentwise non-negative, summing to 1, with the same indexing. -/
theorem claim_C8_predict_proba_softmax (features : List (List ℚ)) (labels : List Label)
    (delta : ℚ) (feature : List ℚ)
    (hne : labels ≠ []) (hlen : features.length = labels.length) :
    ∃ ps, estimate_class_posteriors (fit features labels delta) feature = Except.ok ps ∧
      predict_proba (fit features labels delta) feature = Except.ok (softmax ps) ∧
      (∀ x ∈ softmax ps, 0 ≤ x) ∧
      (softmax ps).sum = 1 ∧
      (softmax ps).length = ps.length := by
  obtain ⟨ps, hps, hpsne, _, _, hproba⟩ :=
    predict_and_proba_ok (fit features labels delta) feature
      (estimate_class_priors labels)
      (estimate_conditional_probabilities features labels delta (labels.length : ℚ))
      rfl rfl (estimate_class_priors_ne_nil labels hne)
      (estimate_conditional_probabilities_ne_nil features labels delta
        (labels.length : ℚ) hne hlen)
      (trained_keys_lookup features labels delta (labels.length : ℚ) hlen)
  exact ⟨ps, hps, hproba, softmax_nonneg ps, softmax_sum_one ps hpsne, softmax_length ps⟩

/-- C10: for every classifier trained by `fit` on a nonempty training set and any
feature vector, the first-arg-max index of the `predict_proba` vector equals the
index returned by `predict` (softmax preserves the arg-max position and the
first-index tie-break). -/
theorem claim_C10_argmax_consistency (features : List (List ℚ)) (labels : List Label)
    (delta : ℚ) (feature : List ℚ)
    (hne : labels ≠ []) (hlen : features.length = labels.length) :
    ∃ ps, estimate_class_posteriors (fit features labels delta) feature = Except.ok ps ∧
      predict (fit features labels delta) feature = Except.ok (argmaxFirst ps) ∧
      predict_proba (fit features labels delta) feature = Except.ok (softmax ps) ∧
      argmaxFirst (softmax ps) = argmaxFirst ps := by
  obtain ⟨ps, hps, hpsne, _, hpredict, hproba⟩ :=
    predict_and_proba_ok (fit features labels delta) feature
      (estimate_class_priors labels)
      (estimate_conditional_probabilities features labels delta (labels.length : ℚ))
      rfl rfl (estimate_class_priors_ne_nil labels hne)
      (estimate_conditional_probabilities_ne_nil features labels delta
        (labels.length : ℚ) hne hlen)
      (trained_keys_lookup features labels delta (labels.length : ℚ) hlen)
  exact ⟨ps, hps, hpredict, hproba, argmaxFirst_softmax ps hpsne⟩


/-- C2 amended witness: the concrete conclusion on a trained two-class state. -/
theorem claim_C2_predict_rank_index_witness :
    (([0, 1] : List Label) ≠ []) ∧
    (([[1, 0], [0, 1]] : List (List ℚ)).length = ([0, 1] : List Label).length) ∧
    (∃ ps, estimate_class_posteriors (fit [[1, 0], [0, 1]] [0, 1] 1) [1, 0] = Except.ok ps ∧
      predict (fit [[1, 0], [0, 1]] [0, 1] 1) [1, 0] = Except.ok (argmaxFirst ps) ∧
      argmaxFirst ps < ps.length ∧
      ps.getD (argmaxFirst ps) 0 = maxList ps ∧
      (∀ i, i < ps.length → ps.getD i 0 ≤ maxList ps) ∧
      (∀ i, i < argmaxFirst ps → ps.getD i 0 < maxList ps)) :=
  ⟨by simp, rfl, claim_C2_predict_rank_index [[1, 0], [0, 1]] [0, 1] 1 [1, 0] (by simp) rfl⟩

/-- C8 witness: the concrete conclusion on a trained two-class state. -/
theorem claim_C8_predict_proba_softmax_witness :
    (([0, 1] : List Label) ≠ []) ∧
    (([[1, 0], [0, 1]] : List (List ℚ)).length = ([0, 1] : List Label).length) ∧
    (∃ ps, estimate_class_posteriors (fit [[1, 0], [0, 1]] [0, 1] 1) [1, 0] = Except.ok ps ∧
      predict_proba (fit [[1, 0], [0, 1]] [0, 1] 1) [1, 0] = Except.ok (softmax ps) ∧
      (∀ x ∈ softmax ps, 0 ≤ x) ∧
      (softmax ps).sum = 1 ∧
      (softmax ps).length = ps.length) :=
  ⟨by simp, rfl, claim_C8_predict_proba_softmax [[1, 0], [0, 1]] [0, 1] 1 [1, 0] (by simp) rfl⟩

/-- C10 witness: the concrete conclusion on a trained two-class state. -/
theorem claim_C10_argmax_consistency_witness :
    (([0, 1] : List Label) ≠ []) ∧
    (([[1, 0], [0, 1]] : List (List ℚ)).length = ([0, 1] : List Label).length) ∧
    (∃ ps, estimate_class_posteriors (fit [[1, 0], [0, 1]] [0, 1] 1) [1, 0] = Except.ok ps ∧
      predict (fit [[1, 0], [0, 1]] [0, 1] 1) [1, 0] = Except.ok (argmaxFirst ps) ∧
      predict_proba (fit [[1, 0], [0, 1]] [0, 1] 1) [1, 0] = Except.ok (softmax ps) ∧
      argmaxFirst (softmax ps) = argmaxFirst ps) :=
  ⟨by simp, rfl, claim_C10_argmax_consistency [[1, 0], [0, 1]] [0, 1] 1 [1, 0] (by simp) rfl⟩

/-- C4 witness: the concrete conclusion on a trained two-class state. -/
theorem claim_C4_posteriors_sorted_formula_witness :
    (([[1, 0], [0, 1]] : List (List ℚ)).length = ([0, 1] : List Label).length) ∧
    (∀ row ∈ ([[1, 0], [0, 1]] : List (List ℚ)), row.length = ([1, 0] : List ℚ).length) ∧
    (∃ ps, estimate_class_posteriors (fit [[1, 0], [0, 1]] [0, 1] 1) [1, 0] = Except.ok ps ∧
      ((sortPairs (estimate_class_priors [0, 1])).map Prod.fst).Sorted (· < ·) ∧
      (sortPairs (estimate_class_priors [0, 1])).Perm (estimate_class_priors [0, 1]) ∧
      (∀ x : Label, x ∈ (estimate_class_priors [0, 1]).map Prod.fst ↔ x ∈ ([0, 1] : List Label)) ∧
      ps.length = (estimate_class_priors [0, 1]).length ∧
      ∀ i, i < ps.length →
        ps.getD i 0 = spec_log_posterior ((sortPairs (estimate_class_priors [0, 1])).getD i (0, 0)).2
          ((alookup (estimate_conditional_probabilities [[1, 0], [0, 1]] [0, 1] 1 (([0, 1] : List Label).length : ℚ))
            ((sortPairs (estimate_class_priors [0, 1])).getD i (0, 0)).1).getD []) [1, 0]) :=
  ⟨rfl, by simp, claim_C4_posteriors_sorted_formula [[1, 0], [0, 1]] [0, 1] 1 [1, 0] rfl (by simp)⟩


end NaiveBayesModel
